import Mathlib

/-!
A shallow embedding of the step registration and resolution engine of
pytest-bdd (`pytest_bdd/steps.py`), together with the parser-matching and
step-resolution contract of its design document. Pure Python functions are
embedded as Lean functions; the mutable pytest request state touched by
`inject_fixture` is embedded as an explicit record passed and returned.
-/

namespace PytestBdd

/-! ### Decimal rendering of naturals

Python renders the loop counter of `find_unique_name` in decimal via an
f-string. `Nat.repr` is the same decimal rendering; the lemmas below prove
it injective, which is what the uniqueness argument needs.
-/

/-- Specification-side list of decimal digit characters of `n`, most
significant first. Only used in proofs. -/
def decDigits (n : Nat) : List Char :=
  if n < 10 then [Nat.digitChar n]
  else decDigits (n / 10) ++ [Nat.digitChar (n % 10)]
termination_by n
decreasing_by
  simp_wf
  exact Nat.div_lt_self (by omega) (by decide)

theorem toDigitsCore_eq_decDigits (fuel : Nat) :
    ∀ (n : Nat) (acc : List Char), n < 10 ^ fuel → 1 ≤ fuel →
      Nat.toDigitsCore 10 fuel n acc = decDigits n ++ acc := by
  induction fuel with
  | zero => intro n acc _ h1; omega
  | succ f ih =>
    intro n acc hn _
    rw [decDigits]
    by_cases h10 : n < 10
    · have hdiv : n / 10 = 0 := Nat.div_eq_of_lt h10
      simp [Nat.toDigitsCore, hdiv, h10, Nat.mod_eq_of_lt h10]
    · have hdiv : n / 10 ≠ 0 := by
        intro h0
        have := Nat.div_eq_of_lt (show n < 10 by omega)
        omega
      have hf1 : 1 ≤ f := by
        by_contra hf0
        have hf : f = 0 := by omega
        subst hf
        simp [pow_succ, pow_zero] at hn
        omega
      have hlt : n / 10 < 10 ^ f := by
        rw [Nat.div_lt_iff_lt_mul (by omega : 0 < 10)]
        calc n < 10 ^ (f + 1) := hn
        _ = 10 ^ f * 10 := by rw [pow_succ]
      simp only [Nat.toDigitsCore, hdiv, if_false, h10]
      rw [ih (n / 10) (Nat.digitChar (n % 10) :: acc) hlt hf1]
      simp [h10]

theorem repr_eq_decDigits (n : Nat) : Nat.repr n = List.asString (decDigits n) := by
  have hlt : n < 10 ^ (n + 1) := by
    calc n < 10 ^ n := Nat.lt_pow_self (by omega) n
    _ ≤ 10 ^ (n + 1) := Nat.pow_le_pow_right (by omega) (Nat.le_succ n)
  show (Nat.toDigitsCore 10 (n + 1) n []).asString = List.asString (decDigits n)
  rw [toDigitsCore_eq_decDigits (n + 1) n [] hlt (by omega)]
  simp

/-- Decode a list of decimal digit characters back to the natural number. -/
def decodeDec (l : List Char) : Nat :=
  l.foldl (fun a c => 10 * a + (c.toNat - Char.toNat '0')) 0

theorem digitChar_val (k : Nat) (hk : k < 10) :
    (Nat.digitChar k).toNat - Char.toNat '0' = k := by
  interval_cases k <;> decide

theorem decodeDec_decDigits (n : Nat) : decodeDec (decDigits n) = n := by
  induction n using Nat.strong_induction_on with
  | _ n ih =>
    rw [decDigits]
    by_cases h : n < 10
    · rw [if_pos h]
      simpa [decodeDec] using digitChar_val n h
    · have hpos : 0 < n := by omega
      have hlt : n / 10 < n := Nat.div_lt_self hpos (by decide)
      simp only [h, if_false]
      show List.foldl _ 0 (decDigits (n / 10) ++ [Nat.digitChar (n % 10)]) = n
      rw [List.foldl_append]
      have hrec : List.foldl (fun a c => 10 * a + (c.toNat - Char.toNat '0')) 0
          (decDigits (n / 10)) = n / 10 := ih (n / 10) hlt
      simp only [List.foldl, hrec, digitChar_val (n % 10) (Nat.mod_lt n (by omega))]
      exact Nat.div_add_mod n 10

theorem repr_injective {m n : Nat} (h : Nat.repr m = Nat.repr n) : m = n := by
  have hd : decDigits m = decDigits n := by
    have h2 := congrArg String.data h
    rw [repr_eq_decDigits, repr_eq_decDigits] at h2
    exact h2
  calc m = decodeDec (decDigits m) := (decodeDec_decDigits m).symm
  _ = decodeDec (decDigits n) := by rw [hd]
  _ = n := decodeDec_decDigits n

/-! ### The Name Allocator: `find_unique_name` (steps.py lines 128-142) -/

/-- The candidate produced in one loop round of `find_unique_name`: the Python
f-string appending an underscore and the decimal rendering of `i`. -/
def suffixed (name : String) (i : Nat) : String := name ++ "_" ++ Nat.repr i

theorem suffixed_injective (name : String) {i j : Nat}
    (h : suffixed name i = suffixed name j) : i = j := by
  apply repr_injective
  have h2 := congrArg String.data h
  simp only [suffixed, String.data_append] at h2
  have h3 := List.append_cancel_left h2
  exact String.ext h3

/-- The `for i in count(1)` loop of `find_unique_name`. Python iterates
unboundedly; here the loop carries fuel, and `findUniqueLoop_total` below
proves that `seen.length + 1` rounds always suffice, so the embedding loses
no behaviour of the source. -/
def findUniqueLoop (name : String) (seen : List String) : Nat → Nat → Option String
  | 0, _ => none
  | fuel + 1, i =>
    let new_name := suffixed name i
    if new_name ∈ seen then findUniqueLoop name seen fuel (i + 1) else some new_name

theorem findUniqueLoop_spec (name : String) (seen : List String) :
    ∀ (fuel i : Nat), (∃ k, k < fuel ∧ suffixed name (i + k) ∉ seen) →
      ∃ j, i ≤ j ∧ findUniqueLoop name seen fuel i = some (suffixed name j) ∧
        suffixed name j ∉ seen ∧ ∀ m, i ≤ m → m < j → suffixed name m ∈ seen := by
  intro fuel
  induction fuel with
  | zero =>
    intro i h
    obtain ⟨k, hk, _⟩ := h
    omega
  | succ f ih =>
    intro i hex
    by_cases h : suffixed name i ∈ seen
    · have hex' : ∃ k, k < f ∧ suffixed name (i + 1 + k) ∉ seen := by
        obtain ⟨k, hk, hnot⟩ := hex
        match k with
        | 0 => exact absurd h (by simpa using hnot)
        | k' + 1 =>
          exact ⟨k', by omega, by have : i + 1 + k' = i + (k' + 1) := by omega
                                  rw [this]; exact hnot⟩
      obtain ⟨j, hij, heq, hnm, hall⟩ := ih (i + 1) hex'
      refine ⟨j, by omega, ?_, hnm, ?_⟩
      · simp only [findUniqueLoop, h, if_true]
        exact heq
      · intro m h1 h2
        rcases Nat.eq_or_lt_of_le h1 with heq' | hlt
        · rw [← heq']; exact h
        · exact hall m hlt h2
    · exact ⟨i, Nat.le_refl i, by simp [findUniqueLoop, h], h, by intro m h1 h2; omega⟩

theorem exists_fresh_suffix (name : String) (seen : List String) :
    ∃ k, k < seen.length + 1 ∧ suffixed name (1 + k) ∉ seen := by
  by_contra hall
  push_neg at hall
  have hinj : Function.Injective (fun k : Nat => suffixed name (1 + k)) := by
    intro a b hab
    have := suffixed_injective name hab
    omega
  have hnd : ((List.range (seen.length + 1)).map
      (fun k => suffixed name (1 + k))).Nodup :=
    (List.nodup_range _).map hinj
  have hsub : ((List.range (seen.length + 1)).map
      (fun k => suffixed name (1 + k))).toFinset ⊆ seen.toFinset := by
    intro x hx
    rw [List.mem_toFinset] at hx
    rw [List.mem_toFinset]
    obtain ⟨k, hk, rfl⟩ := List.mem_map.mp hx
    exact hall k (List.mem_range.mp hk)
  have hcard1 : ((List.range (seen.length + 1)).map
      (fun k => suffixed name (1 + k))).toFinset.card = seen.length + 1 := by
    rw [List.toFinset_card_of_nodup hnd]
    simp
  have hcard2 := Finset.card_le_card hsub
  have hcard3 := List.toFinset_card_le seen
  omega

/-- Embedding of `find_unique_name` (steps.py). Python's `seen = set(seen)`
only changes membership testing, not semantics, so `seen` stays a list; the
`.getD name` default on the fuelled loop is provably never taken
(`findUniqueLoop_total`). -/
def find_unique_name (name : String) (seen : List String) : String :=
  if name ∈ seen then (findUniqueLoop name seen (seen.length + 1) 1).getD name
  else name

theorem findUniqueLoop_total (name : String) (seen : List String) :
    ∃ j, 1 ≤ j ∧ findUniqueLoop name seen (seen.length + 1) 1 = some (suffixed name j) ∧
      suffixed name j ∉ seen ∧ ∀ m, 1 ≤ m → m < j → suffixed name m ∈ seen :=
  findUniqueLoop_spec name seen (seen.length + 1) 1 (exists_fresh_suffix name seen)

theorem find_unique_name_of_mem (name : String) (seen : List String)
    (h : name ∈ seen) :
    ∃ i, 0 < i ∧ find_unique_name name seen = suffixed name i ∧
      suffixed name i ∉ seen ∧ ∀ j, 0 < j → j < i → suffixed name j ∈ seen := by
  obtain ⟨j, hj1, heq, hnm, hall⟩ := findUniqueLoop_total name seen
  refine ⟨j, by omega, ?_, hnm, ?_⟩
  · simp [find_unique_name, h, heq]
  · intro m h0 hm
    exact hall m (by omega) hm

theorem find_unique_name_not_mem (name : String) (seen : List String) :
    find_unique_name name seen ∉ seen := by
  by_cases h : name ∈ seen
  · obtain ⟨i, _, heq, hnm, _⟩ := find_unique_name_of_mem name seen h
    rw [heq]
    exact hnm
  · rw [find_unique_name, if_neg h]
    exact h

/-! ### Python dict operations

The pytest request state mutated by `inject_fixture` lives in Python dicts
and lists. Dicts are embedded as association lists: lookup reads the first
entry with the key, assignment overwrites it in place (or appends when the
key is new), exactly the observable behaviour of a Python dict with unique
keys. -/

/-- Python `d[k]` / `d.get(k)` membership read: the value stored under `k`. -/
def dictGet {A : Type} (m : List (String × A)) (k : String) : Option A :=
  match m with
  | [] => none
  | (k', v) :: rest => if k' = k then some v else dictGet rest k

/-- Python `d[k] = v`: overwrite in place, or append when the key is new. -/
def dictSet {A : Type} (m : List (String × A)) (k : String) (v : A) :
    List (String × A) :=
  match m with
  | [] => [(k, v)]
  | (k', v') :: rest =>
    if k' = k then (k, v) :: rest else (k', v') :: dictSet rest k v

/-- In-place mutation of the value stored under `k` (Python `d[k].append(..)`
or `d[k].remove(..)` mutate the stored list object). -/
def dictModify {A : Type} (m : List (String × A)) (k : String) (f : A → A) :
    List (String × A) :=
  match m with
  | [] => []
  | (k', v') :: rest =>
    if k' = k then (k', f v') :: rest else (k', v') :: dictModify rest k f

theorem dictGet_dictSet_self {A : Type} (m : List (String × A)) (k : String) (v : A) :
    dictGet (dictSet m k v) k = some v := by
  induction m with
  | nil => simp [dictGet, dictSet]
  | cons p rest ih =>
    by_cases h : p.1 = k
    · simp [dictGet, dictSet, h]
    · simp [dictGet, dictSet, h, ih]

theorem dictSet_dictSet_self {A : Type} (m : List (String × A)) (k : String) (v w : A) :
    dictSet (dictSet m k v) k w = dictSet m k w := by
  induction m with
  | nil => simp [dictSet]
  | cons p rest ih =>
    by_cases h : p.1 = k
    · simp [dictSet, h]
    · simp [dictSet, h, ih]

theorem dictModify_dictModify_self {A : Type} (m : List (String × A)) (k : String)
    (f g : A → A) :
    dictModify (dictModify m k f) k g = dictModify m k (fun v => g (f v)) := by
  induction m with
  | nil => simp [dictModify]
  | cons p rest ih =>
    by_cases h : p.1 = k
    · simp [dictModify, h]
    · simp [dictModify, h, ih]

theorem dictModify_eq_self {A : Type} (m : List (String × A)) (k : String)
    (f : A → A) (l : A) (hget : dictGet m k = some l) (hf : f l = l) :
    dictModify m k f = m := by
  induction m with
  | nil => simp [dictGet] at hget
  | cons p rest ih =>
    by_cases h : p.1 = k
    · rw [dictGet, if_pos h] at hget
      have hv : p.2 = l := by injection hget
      have hfp : f p.2 = p.2 := by rw [hv]; exact hf
      rw [dictModify, if_pos h, hfp]
    · rw [dictGet, if_neg h] at hget
      rw [dictModify, if_neg h, ih hget]

theorem dictGet_dictModify_self {A : Type} (m : List (String × A)) (k : String)
    (f : A → A) :
    dictGet (dictModify m k f) k = (dictGet m k).map f := by
  induction m with
  | nil => simp [dictGet, dictModify]
  | cons p rest ih =>
    by_cases h : p.1 = k
    · simp [dictGet, dictModify, h]
    · simp [dictGet, dictModify, h, ih]

theorem dictModify_append_of_get_none {A : Type} (m : List (String × A)) (k : String)
    (f : A → A) (v : A) (hget : dictGet m k = none) :
    dictModify (m ++ [(k, v)]) k f = m ++ [(k, f v)] := by
  induction m with
  | nil => simp [dictModify]
  | cons p rest ih =>
    by_cases h : p.1 = k
    · rw [dictGet, if_pos h] at hget
      exact absurd hget (by simp)
    · rw [dictGet, if_neg h] at hget
      simp only [List.cons_append, dictModify, if_neg h]
      exact congrArg (p :: ·) (ih hget)

theorem dictSet_append_of_get_none {A : Type} (m : List (String × A)) (k : String)
    (v : A) (hget : dictGet m k = none) :
    dictSet m k v = m ++ [(k, v)] := by
  induction m with
  | nil => simp [dictSet]
  | cons p rest ih =>
    by_cases h : p.1 = k
    · rw [dictGet, if_pos h] at hget
      exact absurd hget (by simp)
    · rw [dictGet, if_neg h] at hget
      simp only [dictSet, if_neg h, ih hget, List.cons_append]

theorem dictGet_append_single_self {A : Type} (m : List (String × A)) (k : String)
    (v : A) (hget : dictGet m k = none) :
    dictGet (m ++ [(k, v)]) k = some v := by
  induction m with
  | nil => simp [dictGet]
  | cons p rest ih =>
    by_cases h : p.1 = k
    · rw [dictGet, if_pos h] at hget
      exact absurd hget (by simp)
    · rw [dictGet, if_neg h] at hget
      simp only [List.cons_append, dictGet, if_neg h]
      exact ih hget

/-! ### The pytest request state and `inject_fixture` (steps.py lines 189-226) -/

/-- Embedding of the `_pytest.fixtures.FixtureDef` object that `inject_fixture`
constructs. `uid` models Python object identity: `FixtureDef` defines no
`__eq__`, so `list.remove(fd)` in the finalizer compares by identity.
`func` embeds the `lambda: value` and `cached_result` the
`(value, cache_key, exc)` triple assigned right after construction. -/
structure FixtureDef (V : Type) where
  uid : Nat
  argname : String
  func : Unit → V
  cached_result : Option (V × Nat × Option Unit)

/-- Python `list.remove` by object identity: drop the first element whose
identity matches. -/
def removeFirstFd {V : Type} (l : List (FixtureDef V)) (fd : FixtureDef V) :
    List (FixtureDef V) :=
  match l with
  | [] => []
  | x :: xs => if x.uid = fd.uid then xs else x :: removeFirstFd xs fd

theorem removeFirstFd_append_fresh {V : Type} (l : List (FixtureDef V))
    (fd : FixtureDef V) (hfresh : ∀ x ∈ l, x.uid ≠ fd.uid) :
    removeFirstFd (l ++ [fd]) fd = l := by
  induction l with
  | nil => simp [removeFirstFd]
  | cons x xs ih =>
    have hx : x.uid ≠ fd.uid := hfresh x (by simp)
    simp only [List.cons_append, removeFirstFd, if_neg hx]
    exact congrArg (x :: ·) (ih (fun y hy => hfresh y (by simp [hy])))

/-- The slice of the pytest request state that `inject_fixture` reads and
mutates: `request._fixturemanager._arg2fixturedefs` (name to list of fixture
definitions), `request._fixture_defs` (the request's resolution cache; a
stored value may be `None`, which Python's `.get` cannot distinguish from an
absent key), and `request._pyfuncitem._fixtureinfo.names_closure` (the list
of fixture names reachable from the test, also what `request.fixturenames`
exposes). -/
structure RequestState (V : Type) where
  arg2fixturedefs : List (String × List (FixtureDef V))
  fixture_defs : List (String × Option (FixtureDef V))
  names_closure : List String

/-- Python `request._fixture_defs.get(arg)`: `None` both when the key is
absent and when the stored value is `None`. -/
def pyGetFlat {V : Type} (m : List (String × Option (FixtureDef V))) (k : String) :
    Option (FixtureDef V) :=
  match dictGet m k with
  | some v => v
  | none => none

/-- Python `d.setdefault(arg, []).append(fd)` on `_arg2fixturedefs`: append to
the stored list when the key exists, else bind the key to `[fd]`. -/
def pySetdefaultAppend {V : Type} (m : List (String × List (FixtureDef V)))
    (k : String) (fd : FixtureDef V) : List (String × List (FixtureDef V)) :=
  match dictGet m k with
  | some _ => dictModify m k (fun l => l ++ [fd])
  | none => m ++ [(k, [fd])]

/-- The list of fixture definitions registered for `k`, the view pytest
resolution consumes (an absent key and an empty list are the same absence of
definitions). -/
def defsFor {V : Type} (m : List (String × List (FixtureDef V))) (k : String) :
    List (FixtureDef V) :=
  (dictGet m k).getD []

/-- The `FixtureDef(...)` construction of `inject_fixture` (steps.py lines
197-205), including the `fd.cached_result = (value, 0, None)` assignment: a
pure construction performed before any mutation of the request state. -/
def mkInjectedFixtureDef {V : Type} (arg : String) (value : V) (uid : Nat) :
    FixtureDef V :=
  ⟨uid, arg, fun _ => value, some (value, 0, none)⟩

/-- The finalizer `fin` of `inject_fixture` (steps.py lines 210-215): remove
the installed definition from `_arg2fixturedefs[arg]`, write the previously
active definition (possibly `None`) back into the cache, and drop `arg` from
the names closure when this injection added it. -/
def injectFin {V : Type} (fd : FixtureDef V) (old_fd : Option (FixtureDef V))
    (add_fixturename : Bool) (arg : String) (t : RequestState V) : RequestState V :=
  { arg2fixturedefs := dictModify t.arg2fixturedefs arg (fun l => removeFirstFd l fd)
    fixture_defs := dictSet t.fixture_defs arg old_fd
    names_closure :=
      if add_fixturename then t.names_closure.erase arg else t.names_closure }

/-- The installation half of `inject_fixture` (steps.py lines 207-225) given
an already constructed fixture definition: snapshot the prior binding,
register the finalizer, then append the definition, overwrite the cache and
extend the names closure. Returns the mutated state and the registered
finalizer (the source hands it to `request.addfinalizer`). -/
def inject_install {V : Type} (s : RequestState V) (arg : String)
    (fd : FixtureDef V) : RequestState V × (RequestState V → RequestState V) :=
  let old_fd := pyGetFlat s.fixture_defs arg
  let add_fixturename : Bool := !(decide (arg ∈ s.names_closure))
  let fin := injectFin fd old_fd add_fixturename arg
  let s' : RequestState V :=
    { arg2fixturedefs := pySetdefaultAppend s.arg2fixturedefs arg fd
      fixture_defs := dictSet s.fixture_defs arg (some fd)
      names_closure :=
        if add_fixturename then s.names_closure ++ [arg] else s.names_closure }
  (s', fin)

/-- Embedding of `inject_fixture` (steps.py lines 189-226): construct the
fixture definition, then install it. -/
def inject_fixture {V : Type} (s : RequestState V) (arg : String) (value : V)
    (uid : Nat) : RequestState V × (RequestState V → RequestState V) :=
  inject_install s arg (mkInjectedFixtureDef arg value uid)

/-- Modelled from the spec: pytest's `request.addfinalizer` (not part of the
sources) guarantees finalizers run in reverse order of registration on
teardown of the invocation. Finalizers are pushed at the head, so teardown
applies the list left to right. -/
def runFinalizers {V : Type} (fins : List (RequestState V → RequestState V))
    (s : RequestState V) : RequestState V :=
  fins.foldl (fun t f => f t) s

theorem dictSet_eq_self {A : Type} (m : List (String × A)) (k : String) (v : A)
    (hget : dictGet m k = some v) : dictSet m k v = m := by
  induction m with
  | nil => simp [dictGet] at hget
  | cons p rest ih =>
    by_cases h : p.1 = k
    · rw [dictGet, if_pos h] at hget
      have hv : p.2 = v := by injection hget
      rw [dictSet, if_pos h, ← h, ← hv]
    · rw [dictGet, if_neg h] at hget
      rw [dictSet, if_neg h, ih hget]

theorem removeFirstFd_single (fd : FixtureDef V) : removeFirstFd [fd] fd = [] := by
  simp [removeFirstFd]

/-- Running the finalizer of one `inject_install` directly after it restores
the reachable name list, the active binding for the injected name and the
definition list for it, provided the installed definition is a fresh object
(as the freshly constructed `FixtureDef` always is). -/
theorem inject_install_fin_restores {V : Type} (s : RequestState V) (arg : String)
    (fd : FixtureDef V)
    (hfresh : ∀ x ∈ defsFor s.arg2fixturedefs arg, x.uid ≠ fd.uid) :
    ((inject_install s arg fd).2 (inject_install s arg fd).1).names_closure
        = s.names_closure ∧
    pyGetFlat ((inject_install s arg fd).2 (inject_install s arg fd).1).fixture_defs arg
        = pyGetFlat s.fixture_defs arg ∧
    defsFor ((inject_install s arg fd).2 (inject_install s arg fd).1).arg2fixturedefs arg
        = defsFor s.arg2fixturedefs arg ∧
    arg ∈ (inject_install s arg fd).1.names_closure := by
  refine ⟨?_, ?_, ?_, ?_⟩
  · show (if !(decide (arg ∈ s.names_closure)) then
        (if !(decide (arg ∈ s.names_closure)) then s.names_closure ++ [arg]
          else s.names_closure).erase arg
      else (if !(decide (arg ∈ s.names_closure)) then s.names_closure ++ [arg]
          else s.names_closure)) = s.names_closure
    by_cases hmem : arg ∈ s.names_closure
    · simp [hmem]
    · have hc : (!(decide (arg ∈ s.names_closure))) = true := by simp [hmem]
      rw [if_pos hc, if_pos hc, List.erase_append_right [arg] hmem,
        List.erase_cons_head]
      simp
  · show pyGetFlat (dictSet (dictSet s.fixture_defs arg (some fd)) arg
        (pyGetFlat s.fixture_defs arg)) arg = pyGetFlat s.fixture_defs arg
    rw [dictSet_dictSet_self]
    show (match dictGet (dictSet s.fixture_defs arg (pyGetFlat s.fixture_defs arg)) arg with
      | some v => v | none => none) = pyGetFlat s.fixture_defs arg
    rw [dictGet_dictSet_self]
  · show defsFor (dictModify (pySetdefaultAppend s.arg2fixturedefs arg fd) arg
        (fun l => removeFirstFd l fd)) arg = defsFor s.arg2fixturedefs arg
    rcases hg : dictGet s.arg2fixturedefs arg with _ | l
    · rw [pySetdefaultAppend, hg]
      rw [dictModify_append_of_get_none s.arg2fixturedefs arg _ [fd] hg]
      rw [removeFirstFd_single]
      rw [defsFor, dictGet_append_single_self s.arg2fixturedefs arg [] hg]
      rw [defsFor, hg]
      rfl
    · have hl : defsFor s.arg2fixturedefs arg = l := by rw [defsFor, hg]; rfl
      rw [pySetdefaultAppend, hg]
      rw [dictModify_dictModify_self]
      rw [dictModify_eq_self s.arg2fixturedefs arg _ l hg]
      exact removeFirstFd_append_fresh l fd (by rw [← hl]; exact hfresh)
  · show arg ∈ (if !(decide (arg ∈ s.names_closure)) then s.names_closure ++ [arg]
        else s.names_closure)
    by_cases hmem : arg ∈ s.names_closure
    · simp [hmem]
    · simp [hmem]

/-- When the injected name already has a registered definition list, an
already cached active binding and is already in the names closure — exactly
the state a previous `inject_fixture` for the same name leaves behind — the
finalizer of a further `inject_install` restores the whole request state
byte for byte. -/
theorem inject_install_fin_id {V : Type} (s : RequestState V) (arg : String)
    (fd : FixtureDef V)
    (hfresh : ∀ x ∈ defsFor s.arg2fixturedefs arg, x.uid ≠ fd.uid)
    (hkeyA : dictGet s.arg2fixturedefs arg ≠ none)
    (hkeyF : dictGet s.fixture_defs arg ≠ none)
    (hmem : arg ∈ s.names_closure) :
    (inject_install s arg fd).2 (inject_install s arg fd).1 = s := by
  rcases hg : dictGet s.arg2fixturedefs arg with _ | l
  · exact absurd hg hkeyA
  rcases hf : dictGet s.fixture_defs arg with _ | o
  · exact absurd hf hkeyF
  have hl : defsFor s.arg2fixturedefs arg = l := by rw [defsFor, hg]; rfl
  have e1 : dictModify (pySetdefaultAppend s.arg2fixturedefs arg fd) arg
      (fun l => removeFirstFd l fd) = s.arg2fixturedefs := by
    rw [pySetdefaultAppend, hg, dictModify_dictModify_self]
    rw [dictModify_eq_self s.arg2fixturedefs arg _ l hg]
    exact removeFirstFd_append_fresh l fd (by rw [← hl]; exact hfresh)
  have e2 : dictSet (dictSet s.fixture_defs arg (some fd)) arg
      (pyGetFlat s.fixture_defs arg) = s.fixture_defs := by
    rw [dictSet_dictSet_self]
    have : pyGetFlat s.fixture_defs arg = o := by rw [pyGetFlat, hf]
    rw [this]
    exact dictSet_eq_self s.fixture_defs arg o hf
  have e3 : (if !(decide (arg ∈ s.names_closure)) then
        (if !(decide (arg ∈ s.names_closure)) then s.names_closure ++ [arg]
          else s.names_closure).erase arg
      else (if !(decide (arg ∈ s.names_closure)) then s.names_closure ++ [arg]
          else s.names_closure)) = s.names_closure := by
    simp [hmem]
  have hbig : RequestState.mk
      (dictModify (pySetdefaultAppend s.arg2fixturedefs arg fd) arg
        (fun l => removeFirstFd l fd))
      (dictSet (dictSet s.fixture_defs arg (some fd)) arg
        (pyGetFlat s.fixture_defs arg))
      (if !(decide (arg ∈ s.names_closure)) then
          (if !(decide (arg ∈ s.names_closure)) then s.names_closure ++ [arg]
            else s.names_closure).erase arg
        else (if !(decide (arg ∈ s.names_closure)) then s.names_closure ++ [arg]
            else s.names_closure))
      = RequestState.mk s.arg2fixturedefs s.fixture_defs s.names_closure := by
    rw [e1, e2, e3]
  exact hbig

theorem defsFor_inject_install {V : Type} (s : RequestState V) (arg : String)
    (fd : FixtureDef V) :
    defsFor (inject_install s arg fd).1.arg2fixturedefs arg
      = defsFor s.arg2fixturedefs arg ++ [fd] := by
  show defsFor (pySetdefaultAppend s.arg2fixturedefs arg fd) arg = _
  rcases hg : dictGet s.arg2fixturedefs arg with _ | l
  · rw [pySetdefaultAppend, hg, defsFor,
      dictGet_append_single_self s.arg2fixturedefs arg [fd] hg, defsFor, hg]
    rfl
  · rw [pySetdefaultAppend, hg, defsFor, dictGet_dictModify_self, hg, defsFor, hg]
    rfl

theorem dictGet_inject_install_arg2 {V : Type} (s : RequestState V) (arg : String)
    (fd : FixtureDef V) :
    dictGet (inject_install s arg fd).1.arg2fixturedefs arg
      = some (defsFor s.arg2fixturedefs arg ++ [fd]) := by
  show dictGet (pySetdefaultAppend s.arg2fixturedefs arg fd) arg = _
  rcases hg : dictGet s.arg2fixturedefs arg with _ | l
  · rw [pySetdefaultAppend, hg,
      dictGet_append_single_self s.arg2fixturedefs arg [fd] hg, defsFor, hg]
    rfl
  · rw [pySetdefaultAppend, hg, dictGet_dictModify_self, hg, defsFor, hg]
    rfl

theorem fixture_defs_inject_install {V : Type} (s : RequestState V) (arg : String)
    (fd : FixtureDef V) :
    dictGet (inject_install s arg fd).1.fixture_defs arg = some (some fd) :=
  dictGet_dictSet_self s.fixture_defs arg (some fd)

theorem mem_closure_inject_install {V : Type} (s : RequestState V) (arg : String)
    (fd : FixtureDef V) : arg ∈ (inject_install s arg fd).1.names_closure := by
  show arg ∈ (if !(decide (arg ∈ s.names_closure)) then s.names_closure ++ [arg]
      else s.names_closure)
  by_cases hmem : arg ∈ s.names_closure
  · simp [hmem]
  · simp [hmem]

/-! ### Claim theorems for the Runtime Injector -/

/-- C1: for every injection performed via `inject_fixture(request, name, value)`,
after the registered finalizer has run, the reachable fixture name list and
the bindings for the name are identical to their state before the injection:
the installed entry is removed from the definitions registered for the name,
the prior entry (if one existed) is restored as the active resolution, and
the name is removed from the reachable set exactly when this injection was
the one that added it. -/
theorem C1_inject_fixture_roundtrip {V : Type} (s : RequestState V) (arg : String)
    (value : V) (uid : Nat)
    (hfresh : ∀ x ∈ defsFor s.arg2fixturedefs arg, x.uid ≠ uid) :
    ((inject_fixture s arg value uid).2 (inject_fixture s arg value uid).1).names_closure
        = s.names_closure ∧
    pyGetFlat ((inject_fixture s arg value uid).2
        (inject_fixture s arg value uid).1).fixture_defs arg
      = pyGetFlat s.fixture_defs arg ∧
    defsFor ((inject_fixture s arg value uid).2
        (inject_fixture s arg value uid).1).arg2fixturedefs arg
      = defsFor s.arg2fixturedefs arg ∧
    arg ∈ (inject_fixture s arg value uid).1.names_closure ∧
    ((arg ∈ ((inject_fixture s arg value uid).2
        (inject_fixture s arg value uid).1).names_closure) ↔
      arg ∈ s.names_closure) := by
  have hfresh' : ∀ x ∈ defsFor s.arg2fixturedefs arg,
      x.uid ≠ (mkInjectedFixtureDef arg value uid : FixtureDef V).uid := hfresh
  obtain ⟨h1, h2, h3, h4⟩ := inject_install_fin_restores s arg
    (mkInjectedFixtureDef arg value uid) hfresh'
  exact ⟨h1, h2, h3, h4, by rw [show ((inject_fixture s arg value uid).2
    (inject_fixture s arg value uid).1).names_closure = s.names_closure from h1]⟩

theorem C1_inject_fixture_roundtrip_witness :
    (∀ x ∈ defsFor (RequestState.mk [] [] [] : RequestState String).arg2fixturedefs "foo",
        x.uid ≠ 0) ∧
    ((inject_fixture (RequestState.mk [] [] [] : RequestState String) "foo" "v" 0).2
        (inject_fixture (RequestState.mk [] [] [] : RequestState String) "foo" "v" 0).1).names_closure
      = [] :=
  ⟨by simp [defsFor, dictGet],
    (C1_inject_fixture_roundtrip (RequestState.mk [] [] []) "foo" "v" 0
      (by simp [defsFor, dictGet])).1⟩

/-- C6: injecting the same name twice within one invocation stacks: because
finalizers run in reverse order of registration, the second finalizer
restores the whole request state that existed immediately before the second
`inject_fixture` call (byte for byte), and running both finalizers restores
the pre-injection reachable name list and the bindings for the name. -/
theorem C6_inject_fixture_stacks {V : Type} (s : RequestState V) (arg : String)
    (v₁ v₂ : V) (u₁ u₂ : Nat)
    (h₁ : ∀ x ∈ defsFor s.arg2fixturedefs arg, x.uid ≠ u₁)
    (h₂ : ∀ x ∈ defsFor s.arg2fixturedefs arg, x.uid ≠ u₂)
    (h12 : u₁ ≠ u₂) :
    (inject_fixture (inject_fixture s arg v₁ u₁).1 arg v₂ u₂).2
        (inject_fixture (inject_fixture s arg v₁ u₁).1 arg v₂ u₂).1
      = (inject_fixture s arg v₁ u₁).1 ∧
    (runFinalizers
        [(inject_fixture (inject_fixture s arg v₁ u₁).1 arg v₂ u₂).2,
          (inject_fixture s arg v₁ u₁).2]
        (inject_fixture (inject_fixture s arg v₁ u₁).1 arg v₂ u₂).1).names_closure
      = s.names_closure ∧
    pyGetFlat (runFinalizers
        [(inject_fixture (inject_fixture s arg v₁ u₁).1 arg v₂ u₂).2,
          (inject_fixture s arg v₁ u₁).2]
        (inject_fixture (inject_fixture s arg v₁ u₁).1 arg v₂ u₂).1).fixture_defs arg
      = pyGetFlat s.fixture_defs arg ∧
    defsFor (runFinalizers
        [(inject_fixture (inject_fixture s arg v₁ u₁).1 arg v₂ u₂).2,
          (inject_fixture s arg v₁ u₁).2]
        (inject_fixture (inject_fixture s arg v₁ u₁).1 arg v₂ u₂).1).arg2fixturedefs arg
      = defsFor s.arg2fixturedefs arg := by
  have fd₁ : FixtureDef V := mkInjectedFixtureDef arg v₁ u₁
  have hdefs₁ : defsFor (inject_fixture s arg v₁ u₁).1.arg2fixturedefs arg
      = defsFor s.arg2fixturedefs arg ++ [mkInjectedFixtureDef arg v₁ u₁] :=
    defsFor_inject_install s arg (mkInjectedFixtureDef arg v₁ u₁)
  have hfresh₂ : ∀ x ∈ defsFor (inject_fixture s arg v₁ u₁).1.arg2fixturedefs arg,
      x.uid ≠ (mkInjectedFixtureDef arg v₂ u₂ : FixtureDef V).uid := by
    rw [hdefs₁]
    intro x hx
    rcases List.mem_append.mp hx with hx₁ | hx₂
    · exact h₂ x hx₁
    · have : x = mkInjectedFixtureDef arg v₁ u₁ := by simpa using hx₂
      rw [this]
      exact h12
  have hid : (inject_fixture (inject_fixture s arg v₁ u₁).1 arg v₂ u₂).2
      (inject_fixture (inject_fixture s arg v₁ u₁).1 arg v₂ u₂).1
      = (inject_fixture s arg v₁ u₁).1 := by
    apply inject_install_fin_id _ arg (mkInjectedFixtureDef arg v₂ u₂) hfresh₂
    · show dictGet (inject_install s arg
          (mkInjectedFixtureDef arg v₁ u₁)).1.arg2fixturedefs arg ≠ none
      rw [dictGet_inject_install_arg2 s arg (mkInjectedFixtureDef arg v₁ u₁)]
      simp
    · show dictGet (inject_install s arg
          (mkInjectedFixtureDef arg v₁ u₁)).1.fixture_defs arg ≠ none
      rw [fixture_defs_inject_install s arg (mkInjectedFixtureDef arg v₁ u₁)]
      simp
    · exact mem_closure_inject_install s arg (mkInjectedFixtureDef arg v₁ u₁)
  have hfresh₁ : ∀ x ∈ defsFor s.arg2fixturedefs arg,
      x.uid ≠ (mkInjectedFixtureDef arg v₁ u₁ : FixtureDef V).uid := h₁
  obtain ⟨r1, r2, r3, _⟩ := inject_install_fin_restores s arg
    (mkInjectedFixtureDef arg v₁ u₁) hfresh₁
  have hrun : runFinalizers
      [(inject_fixture (inject_fixture s arg v₁ u₁).1 arg v₂ u₂).2,
        (inject_fixture s arg v₁ u₁).2]
      (inject_fixture (inject_fixture s arg v₁ u₁).1 arg v₂ u₂).1
      = (inject_fixture s arg v₁ u₁).2 ((inject_fixture s arg v₁ u₁).1) := by
    show (inject_fixture s arg v₁ u₁).2
        ((inject_fixture (inject_fixture s arg v₁ u₁).1 arg v₂ u₂).2
          (inject_fixture (inject_fixture s arg v₁ u₁).1 arg v₂ u₂).1)
      = (inject_fixture s arg v₁ u₁).2 ((inject_fixture s arg v₁ u₁).1)
    rw [hid]
  exact ⟨hid, by rw [hrun]; exact r1, by rw [hrun]; exact r2, by rw [hrun]; exact r3⟩

theorem C6_inject_fixture_stacks_witness :
    (∀ x ∈ defsFor (RequestState.mk [] [] [] : RequestState String).arg2fixturedefs "foo",
        x.uid ≠ 0) ∧
    (∀ x ∈ defsFor (RequestState.mk [] [] [] : RequestState String).arg2fixturedefs "foo",
        x.uid ≠ 1) ∧ (0 : Nat) ≠ 1 ∧
    (inject_fixture (inject_fixture (RequestState.mk [] [] [] : RequestState String)
          "foo" "a" 0).1 "foo" "b" 1).2
        (inject_fixture (inject_fixture (RequestState.mk [] [] [] : RequestState String)
          "foo" "a" 0).1 "foo" "b" 1).1
      = (inject_fixture (RequestState.mk [] [] [] : RequestState String) "foo" "a" 0).1 :=
  ⟨by simp [defsFor, dictGet], by simp [defsFor, dictGet], by decide,
    (C6_inject_fixture_stacks (RequestState.mk [] [] []) "foo" "a" "b" 0 1
      (by simp [defsFor, dictGet]) (by simp [defsFor, dictGet]) (by decide)).1⟩

/-- Modelled from the spec: the host runtime resolves a requested name by
consulting the active fixture definition for it; a present cached result is
returned as-is with no recomputation, otherwise the definition's function
would be invoked. -/
def resolveValue {V : Type} (s : RequestState V) (arg : String) : Option V :=
  match pyGetFlat s.fixture_defs arg with
  | some fd =>
    match fd.cached_result with
    | some (v, _, _) => some v
    | none => some (fd.func ())
  | none => none

/-- C7: an installed entry resolves to exactly the injected value with no
recomputation: the constructed definition carries `cached_result =
(value, 0, None)` (so resolution returns the final value from the cache) and
its function is the constant `lambda: value`; in particular injecting
`"injected foo"` under `foo` makes a later lookup of `foo` observe exactly
`"injected foo"`. -/
theorem C7_injected_value_final {V : Type} (s : RequestState V) (arg : String)
    (value : V) (uid : Nat) :
    resolveValue (inject_fixture s arg value uid).1 arg = some value ∧
    (mkInjectedFixtureDef arg value uid : FixtureDef V).cached_result
      = some (value, 0, none) ∧
    (mkInjectedFixtureDef arg value uid : FixtureDef V).func () = value ∧
    resolveValue (inject_fixture (RequestState.mk [] [] [] : RequestState String)
        "foo" "injected foo" 0).1 "foo" = some "injected foo" := by
  refine ⟨?_, rfl, rfl, rfl⟩
  show (match pyGetFlat (dictSet s.fixture_defs arg
      (some (mkInjectedFixtureDef arg value uid))) arg with
    | some fd =>
      match fd.cached_result with
      | some (v, _, _) => some v
      | none => some (fd.func ())
    | none => none) = some value
  rw [show pyGetFlat (dictSet s.fixture_defs arg
      (some (mkInjectedFixtureDef arg value uid))) arg
      = some (mkInjectedFixtureDef arg value uid) from by
    rw [pyGetFlat, dictGet_dictSet_self]]
  rfl

/-- Embedding of the construct-then-install ordering of `inject_fixture`: the
`FixtureDef(...)` construction (steps.py lines 197-205) completes before any
mutation of the request state (lines 207-225). A construction that is
rejected or raises is embedded as `Except.error`; the exception propagates
and the installation half never runs. -/
def inject_fixture_fallible {V : Type} (construct : Except String (FixtureDef V))
    (s : RequestState V) (arg : String) :
    RequestState V × Option (RequestState V → RequestState V) :=
  match construct with
  | Except.error _ => (s, none)
  | Except.ok fd =>
    let r := inject_install s arg fd
    (r.1, some r.2)

/-- C9: if the injection fails before installation, no partial state is left:
the dependency graph (`arg2fixturedefs`), the resolution cache and the
reachable-name set are exactly as before the call, and no finalizer was
registered — construct-then-install ordering. -/
theorem C9_no_partial_state_on_failure {V : Type}
    (construct : Except String (FixtureDef V)) (s : RequestState V) (arg : String)
    (e : String) (herr : construct = Except.error e) :
    (inject_fixture_fallible construct s arg).1 = s ∧
    (inject_fixture_fallible construct s arg).2 = none ∧
    (inject_fixture_fallible construct s arg).1.arg2fixturedefs = s.arg2fixturedefs ∧
    (inject_fixture_fallible construct s arg).1.fixture_defs = s.fixture_defs ∧
    (inject_fixture_fallible construct s arg).1.names_closure = s.names_closure := by
  rw [herr]
  exact ⟨rfl, rfl, rfl, rfl, rfl⟩

theorem C9_no_partial_state_on_failure_witness :
    (Except.error "reserved name collision" : Except String (FixtureDef String))
      = Except.error "reserved name collision" ∧
    (inject_fixture_fallible
        (Except.error "reserved name collision" : Except String (FixtureDef String))
        (RequestState.mk [] [] ["request"]) "foo").1
      = RequestState.mk [] [] ["request"] :=
  ⟨rfl,
    (C9_no_partial_state_on_failure
      (Except.error "reserved name collision")
      (RequestState.mk [] [] ["request"]) "foo" "reserved name collision" rfl).1⟩

/-! ### Step types, name prefixes and `get_step_fixture_name`
(steps.py lines 49-78) -/

/-- Modelled from the spec: the category constant `GIVEN` of the excluded
`types` module, the literal step category string. -/
def GIVEN : String := "given"

/-- Modelled from the spec: the category constant `WHEN` of the excluded
`types` module. -/
def WHEN : String := "when"

/-- Modelled from the spec: the category constant `THEN` of the excluded
`types` module. -/
def THEN : String := "then"

/-- Embedding of the `StepNamePrefix` enum of steps.py; the Python class name
is kept verbatim in the rendered strings below, which is all that matters to
the generated fixture names. -/
inductive StepNamePfx
  | step_def
  | step_impl

/-- Python `str()` of the enum member, which is what an f-string interpolates:
for a member of `enum.Enum` this is `"ClassName.member_name"`, not the
declared value. -/
def StepNamePfx.str : StepNamePfx → String
  | StepNamePfx.step_def => "StepNamePrefix.step_def"
  | StepNamePfx.step_impl => "StepNamePrefix.step_impl"

/-- The declared values of the enum members (`.value` in Python), which the
f-strings of steps.py do not use. -/
def StepNamePfx.value : StepNamePfx → String
  | StepNamePfx.step_def => "pytestbdd_stepdef"
  | StepNamePfx.step_impl => "pytestbdd_stepimpl"

/-- Embedding of `get_step_fixture_name` (steps.py lines 70-78): the f-string
interpolates the enum member itself. -/
def get_step_fixture_name (name : String) (type_ : String) : String :=
  StepNamePfx.str StepNamePfx.step_impl ++ "_" ++ type_ ++ "_" ++ name

/-! ### Step parsers

The concrete parser implementations live in the excluded `parsers` module;
only their abstract contract (an identifying name plus a match operation
extracting named arguments) is specified, so they are modelled from the
spec here. -/

/-- Modelled from the spec: one token of a templated step pattern — either a
literal word or a named extraction slot. -/
inductive PatternTok
  | lit (w : String)
  | slot (x : String)

/-- Render a pattern token back to its surface syntax. -/
def renderTok : PatternTok → String
  | PatternTok.lit w => w
  | PatternTok.slot x => "\x7b" ++ x ++ "\x7d"

/-- Modelled from the spec: the polymorphic step parser — a literal-string
variant matching by exact equality, and a templated variant extracting one or
more named arguments from surrounding literal tokens. -/
inductive StepParser
  | string (s : String)
  | parse (toks : List PatternTok)

/-- The parser's identifying name, derived from the literal pattern or its
canonical form (`parser.name` in steps.py). -/
def StepParser.name : StepParser → String
  | StepParser.string s => s
  | StepParser.parse toks => String.intercalate " " (toks.map renderTok)

/-- Split a step line into whitespace-separated words (structural, so that
concrete matches evaluate in the kernel). -/
def splitWordsAux : List Char → List Char → List String
  | [], cur => [String.mk cur.reverse]
  | c :: cs, cur =>
    if c = ' ' then String.mk cur.reverse :: splitWordsAux cs []
    else splitWordsAux cs (c :: cur)

def splitWords (s : String) : List String := splitWordsAux s.data []

/-- Modelled from the spec: match a templated pattern against the words of a
step line, literal tokens by equality, slots by capturing the word. -/
def matchTokens : List PatternTok → List String → Option (List (String × String))
  | [], [] => some []
  | PatternTok.lit w :: ps, t :: ts => if t = w then matchTokens ps ts else none
  | PatternTok.slot x :: ps, t :: ts =>
    (matchTokens ps ts).map (fun args => (x, t) :: args)
  | _, _ => none

/-- Modelled from the spec: `match(text)` of the parser contract — the
literal variant compares for exact equality (no extracted arguments), the
templated variant extracts named arguments. -/
def StepParser.matchText : StepParser → String → Option (List (String × String))
  | StepParser.string s, text => if text = s then some [] else none
  | StepParser.parse toks, text => matchTokens toks (splitWords text)

/-- Modelled from the spec: the string-to-parser coercion of the excluded
`parsers` module — a bare literal string becomes an exact-match parser, a
parser object passes through unchanged. -/
def getParser : Sum String StepParser → StepParser
  | Sum.inl s => StepParser.string s
  | Sum.inr p => p

/-! ### Step definition contexts and the decorators
(steps.py lines 61-67 and 81-186) -/

/-- Embedding of the `StepFunctionContext` dataclass. The implementation
callable type `F` and the converter type `C` are parameters: the decorator
neither applies the callable nor a converter, so nothing constrains them. -/
structure StepFunctionContext (F : Type) (C : Type) where
  type : String
  step_func : F
  parser : StepParser
  converters : List (String × C)
  target_fixture : Option String

/-- Embedding of the inner `decorator` of `_step_decorator` (steps.py lines
145-186) applied to `func`. Python mutates the caller's module scope obtained
from `get_caller_module_locals()` in place; here the scope is passed in and
the updated scope returned alongside the decorator's return value. The
registered entry is the zero-argument `step_function_marker` closing over the
freshly constructed context (the `pytest.fixture` wrapping and the
`_pytest_bdd_step_context` attribute do not change what invoking the accessor
returns). Since `F` is an opaque type parameter, the embedding cannot invoke
`func`: decoration only stores it. -/
def _step_decorator {F C : Type} (step_type : String)
    (step_name : Sum String StepParser)
    (converters : Option (List (String × C))) (target_fixture : Option String)
    (func : F)
    (caller_locals : List (String × (Unit → StepFunctionContext F C))) :
    F × List (String × (Unit → StepFunctionContext F C)) :=
  let conv := converters.getD []
  let parser := getParser step_name
  let context : StepFunctionContext F C :=
    ⟨step_type, func, parser, conv, target_fixture⟩
  let step_function_marker : Unit → StepFunctionContext F C := fun _ => context
  let fixture_step_name := find_unique_name
    (StepNamePfx.str StepNamePfx.step_def ++ "_" ++ step_type ++ "_"
      ++ StepParser.name parser)
    (caller_locals.map Prod.fst)
  (func, dictSet caller_locals fixture_step_name step_function_marker)

/-- Embedding of the `given` decorator (steps.py lines 81-95). -/
def given {F C : Type} (name : Sum String StepParser)
    (converters : Option (List (String × C))) (target_fixture : Option String)
    (func : F)
    (caller_locals : List (String × (Unit → StepFunctionContext F C))) :
    F × List (String × (Unit → StepFunctionContext F C)) :=
  _step_decorator GIVEN name converters target_fixture func caller_locals

/-- Embedding of the `when` decorator (steps.py lines 98-110). -/
def when {F C : Type} (name : Sum String StepParser)
    (converters : Option (List (String × C))) (target_fixture : Option String)
    (func : F)
    (caller_locals : List (String × (Unit → StepFunctionContext F C))) :
    F × List (String × (Unit → StepFunctionContext F C)) :=
  _step_decorator WHEN name converters target_fixture func caller_locals

/-- Embedding of the `then` decorator (steps.py lines 113-125); `then` is a
Lean keyword, hence the underscore. -/
def then_ {F C : Type} (name : Sum String StepParser)
    (converters : Option (List (String × C))) (target_fixture : Option String)
    (func : F)
    (caller_locals : List (String × (Unit → StepFunctionContext F C))) :
    F × List (String × (Unit → StepFunctionContext F C)) :=
  _step_decorator THEN name converters target_fixture func caller_locals

theorem dictGet_eq_none_of_not_mem_keys {A : Type} (m : List (String × A))
    (k : String) (h : k ∉ m.map Prod.fst) : dictGet m k = none := by
  induction m with
  | nil => rfl
  | cons p rest ih =>
    have h1 : p.1 ≠ k := by
      intro he
      exact h (by simp [he])
    rw [dictGet, if_neg h1]
    exact ih (fun hm => h (by simp [hm]))

theorem dictGet_append_single_other {A : Type} (m : List (String × A))
    (key k : String) (v : A) (h : k ≠ key) :
    dictGet (m ++ [(key, v)]) k = dictGet m k := by
  induction m with
  | nil =>
    have hne : ¬key = k := fun he => h he.symm
    simp [dictGet, hne]
  | cons p rest ih =>
    by_cases hp : p.1 = k
    · simp [dictGet, hp]
    · simp only [List.cons_append, dictGet, if_neg hp]
      exact ih

/-- The exact pair a decorator application produces: the original callable
unchanged, and the caller's scope extended by exactly one entry, keyed by the
uniquely allocated name and holding the zero-argument accessor of the freshly
constructed context. -/
theorem step_decorator_shape {F C : Type} (step_type : String)
    (step_name : Sum String StepParser)
    (converters : Option (List (String × C))) (target_fixture : Option String)
    (func : F)
    (caller_locals : List (String × (Unit → StepFunctionContext F C))) :
    _step_decorator step_type step_name converters target_fixture func caller_locals
      = (func, caller_locals ++
          [(find_unique_name
              (StepNamePfx.str StepNamePfx.step_def ++ "_" ++ step_type ++ "_"
                ++ StepParser.name (getParser step_name))
              (caller_locals.map Prod.fst),
            fun _ => StepFunctionContext.mk step_type func (getParser step_name)
              (converters.getD []) target_fixture)]) := by
  have hnone : dictGet caller_locals
      (find_unique_name
        (StepNamePfx.str StepNamePfx.step_def ++ "_" ++ step_type ++ "_"
          ++ StepParser.name (getParser step_name))
        (caller_locals.map Prod.fst)) = none :=
    dictGet_eq_none_of_not_mem_keys _ _
      (fun hm => find_unique_name_not_mem _ _ hm)
  have happ := dictSet_append_of_get_none caller_locals
    (find_unique_name
      (StepNamePfx.str StepNamePfx.step_def ++ "_" ++ step_type ++ "_"
        ++ StepParser.name (getParser step_name))
      (caller_locals.map Prod.fst))
    (fun _ => StepFunctionContext.mk step_type func (getParser step_name)
      (converters.getD []) target_fixture)
    hnone
  exact congrArg (fun m => (func, m)) happ

/-! ### Claim theorems for the Name Allocator and the decorators -/

/-- C2: `find_unique_name(b, S)` returns `b` itself when `b` is not in `S`,
and otherwise `b` with the suffix `_i` for the smallest positive `i` such
that the suffixed name is not in `S`; the result is never a member of `S`,
and the allocation is deterministic. -/
theorem C2_find_unique_name_correct (b : String) (S : List String) :
    (b ∉ S → find_unique_name b S = b) ∧
    (b ∈ S → ∃ i, 0 < i ∧ find_unique_name b S = suffixed b i ∧
      suffixed b i ∉ S ∧ ∀ j, 0 < j → j < i → suffixed b j ∈ S) ∧
    find_unique_name b S ∉ S ∧
    ∀ b2 S2, b2 = b → S2 = S → find_unique_name b2 S2 = find_unique_name b S := by
  refine ⟨?_, find_unique_name_of_mem b S, find_unique_name_not_mem b S, ?_⟩
  · intro h
    rw [find_unique_name, if_neg h]
  · intro b2 S2 h1 h2
    rw [h1, h2]

theorem C2_find_unique_name_correct_witness :
    "x" ∈ ["x", "x_1"] ∧ find_unique_name "x" ["x", "x_1"] ∉ ["x", "x_1"] ∧
    find_unique_name "x" ["x", "x_1"] = "x_2" :=
  ⟨by decide, (C2_find_unique_name_correct "x" ["x", "x_1"]).2.2.1, by decide⟩

/-- C3: a given/when/then decorator returns the decorated callable itself
unchanged, so decorators stack, each stacking application adding exactly one
independent registration; decoration never invokes the callable — `F` is an
opaque type parameter here, so the embedding stores `func` without ever being
able to apply it, mirroring that the source only ever stores `func`. -/
theorem C3_decorator_returns_callable {F C : Type} (step_type : String)
    (step_name : Sum String StepParser) (conv : Option (List (String × C)))
    (tf : Option String) (func : F)
    (locals : List (String × (Unit → StepFunctionContext F C))) :
    (_step_decorator step_type step_name conv tf func locals).1 = func ∧
    (given step_name conv tf func locals).1 = func ∧
    (when step_name conv tf func locals).1 = func ∧
    ( then_ step_name conv tf func locals).1 = func ∧
    (_step_decorator step_type step_name conv tf func locals).2.length
      = locals.length + 1 ∧
    (_step_decorator step_type step_name conv tf func
        ((given step_name conv tf func locals).2)).1 = func ∧
    (_step_decorator step_type step_name conv tf func
        ((given step_name conv tf func locals).2)).2.length
      = locals.length + 2 := by
  refine ⟨rfl, rfl, rfl, rfl, ?_, rfl, ?_⟩
  · rw [step_decorator_shape]
    simp
  · show (_step_decorator step_type step_name conv tf func
        ((_step_decorator GIVEN step_name conv tf func locals).2)).2.length
      = locals.length + 2
    rw [step_decorator_shape, step_decorator_shape]
    simp

theorem C3_decorator_returns_callable_witness :
    (_step_decorator GIVEN (Sum.inl "I have a bar")
        (none : Option (List (String × (String → String))))
        none "impl"
        ([] : List (String × (Unit → StepFunctionContext String (String → String))))).1
      = "impl" :=
  (C3_decorator_returns_callable GIVEN (Sum.inl "I have a bar") none none
    "impl" []).1

/-- C5: one application of a step decorator constructs exactly one step
definition context (with converters defaulting to the empty mapping),
registers into the caller's scope — the scope the decorator was handed, not
anything of the decorator's own — exactly one new entry under the uniquely
allocated identifier, leaves every other binding of that scope untouched,
and the registered zero-argument accessor returns exactly that context. -/
theorem C5_registration_places_accessor {F C : Type} (step_type : String)
    (step_name : Sum String StepParser)
    (converters : Option (List (String × C))) (target_fixture : Option String)
    (func : F)
    (caller_locals : List (String × (Unit → StepFunctionContext F C))) :
    ∃ marker,
      dictGet (_step_decorator step_type step_name converters target_fixture func
          caller_locals).2
        (find_unique_name
          (StepNamePfx.str StepNamePfx.step_def ++ "_" ++ step_type ++ "_"
            ++ StepParser.name (getParser step_name))
          (caller_locals.map Prod.fst)) = some marker ∧
      marker () = StepFunctionContext.mk step_type func (getParser step_name)
        (converters.getD []) target_fixture ∧
      (_step_decorator step_type step_name converters target_fixture func
          caller_locals).2.map Prod.fst
        = caller_locals.map Prod.fst ++
          [find_unique_name
            (StepNamePfx.str StepNamePfx.step_def ++ "_" ++ step_type ++ "_"
              ++ StepParser.name (getParser step_name))
            (caller_locals.map Prod.fst)] ∧
      ∀ k, k ≠ find_unique_name
          (StepNamePfx.str StepNamePfx.step_def ++ "_" ++ step_type ++ "_"
            ++ StepParser.name (getParser step_name))
          (caller_locals.map Prod.fst) →
        dictGet (_step_decorator step_type step_name converters target_fixture func
            caller_locals).2 k = dictGet caller_locals k := by
  rw [step_decorator_shape]
  have hnone : dictGet caller_locals
      (find_unique_name
        (StepNamePfx.str StepNamePfx.step_def ++ "_" ++ step_type ++ "_"
          ++ StepParser.name (getParser step_name))
        (caller_locals.map Prod.fst)) = none :=
    dictGet_eq_none_of_not_mem_keys _ _
      (fun hm => find_unique_name_not_mem _ _ hm)
  refine ⟨_, dictGet_append_single_self _ _ _ hnone, rfl, by simp, ?_⟩
  intro k hk
  exact dictGet_append_single_other _ _ _ _ hk

theorem C5_registration_places_accessor_witness :
    ∃ marker,
      dictGet (_step_decorator GIVEN (Sum.inl "I have a bar")
          (none : Option (List (String × (String → String)))) none "impl"
          ([] : List (String × (Unit → StepFunctionContext String (String → String))))).2
        (find_unique_name
          (StepNamePfx.str StepNamePfx.step_def ++ "_" ++ GIVEN ++ "_"
            ++ StepParser.name (getParser (Sum.inl "I have a bar")))
          ([] : List String)) = some marker ∧
      marker () = StepFunctionContext.mk GIVEN "impl"
        (getParser (Sum.inl "I have a bar")) [] none := by
  obtain ⟨marker, h1, h2, _, _⟩ := C5_registration_places_accessor GIVEN
    (Sum.inl "I have a bar") (none : Option (List (String × (String → String))))
    none "impl" []
  exact ⟨marker, h1, h2⟩

/-- C10: `get_step_fixture_name(n, t)` is the textual form of the enum member
(`"StepNamePrefix.step_impl"`) glued with underscores to the type and name —
not the declared enum value `"pytestbdd_stepimpl"` — and every identifier a
decorator allocates (before uniquifying suffixes, so over an empty scope)
takes the `"StepNamePrefix.step_def_"` form. -/
theorem C10_enum_textual_name (n t : String) :
    get_step_fixture_name n t = "StepNamePrefix.step_impl_" ++ t ++ "_" ++ n ∧
    get_step_fixture_name n t
      ≠ StepNamePfx.value StepNamePfx.step_impl ++ "_" ++ t ++ "_" ++ n ∧
    ∀ (F C : Type) (step_type2 : String) (step_name : Sum String StepParser)
      (converters : Option (List (String × C))) (target_fixture : Option String)
      (func : F),
      (_step_decorator step_type2 step_name converters target_fixture func
          ([] : List (String × (Unit → StepFunctionContext F C)))).2.map Prod.fst
        = ["StepNamePrefix.step_def_" ++ step_type2 ++ "_"
            ++ StepParser.name (getParser step_name)] := by
  have hglue : StepNamePfx.str StepNamePfx.step_impl ++ "_"
      = "StepNamePrefix.step_impl_" := by decide
  have h1 : get_step_fixture_name n t
      = "StepNamePrefix.step_impl_" ++ t ++ "_" ++ n := by
    rw [get_step_fixture_name, hglue]
  refine ⟨h1, ?_, ?_⟩
  · intro h
    rw [h1] at h
    rw [show StepNamePfx.value StepNamePfx.step_impl = "pytestbdd_stepimpl" from rfl]
      at h
    have hl := congrArg String.length h
    simp only [String.length_append] at hl
    rw [(by decide : ("StepNamePrefix.step_impl_" : String).length = 25),
      (by decide : ("pytestbdd_stepimpl" : String).length = 18),
      (by decide : ("_" : String).length = 1)] at hl
    omega
  · intro F C step_type2 step_name converters target_fixture func
    rw [step_decorator_shape]
    have hbase : find_unique_name
        (StepNamePfx.str StepNamePfx.step_def ++ "_" ++ step_type2 ++ "_"
          ++ StepParser.name (getParser step_name)) ([] : List String)
        = StepNamePfx.str StepNamePfx.step_def ++ "_" ++ step_type2 ++ "_"
          ++ StepParser.name (getParser step_name) := by
      rw [find_unique_name, if_neg (by simp)]
    have hglue2 : StepNamePfx.str StepNamePfx.step_def ++ "_"
        = "StepNamePrefix.step_def_" := by decide
    simp only [List.map_append, List.map_cons, List.map_nil, List.nil_append]
    rw [hbase, hglue2]

theorem C10_enum_textual_name_witness :
    get_step_fixture_name "article" "given"
      = "StepNamePrefix.step_impl_given_article" :=
  Eq.trans (C10_enum_textual_name "article" "given").1 (by decide)

/-! ### The step execution contract

The resolution loop itself lives in the excluded scenario-execution
collaborator, so it is modelled from the spec: every registered definition of
the step's category whose parser matches the text runs, in the order the
registry exposes them; a matched definition with a target name publishes its
return value. Implementations take the extracted (converted) arguments;
values and converter outputs are strings, enough to express the claims. -/

/-- The context instantiation used by the execution model: implementations
map extracted arguments to a returned value. -/
abbrev ExecCtx := StepFunctionContext (List (String × String) → String) (String → String)

/-- Modelled from the spec: converters are applied per extracted argument,
after extraction and before invocation; arguments without a converter pass
through unchanged. -/
def applyConverters (conv : List (String × (String → String)))
    (args : List (String × String)) : List (String × String) :=
  args.map (fun kv =>
    match dictGet conv kv.1 with
    | some f => (kv.1, f kv.2)
    | none => kv)

/-- Modelled from the spec: the candidate set for a step line — every
registered definition of the line's category whose parser accepts the text,
in registration order. -/
def matching_defs (registry : List ExecCtx) (category text : String) :
    List ExecCtx :=
  registry.filter (fun c =>
    c.type == category && (StepParser.matchText c.parser text).isSome)

/-- Modelled from the spec: executing one matched definition — extract the
arguments, convert them, invoke the implementation, and publish the returned
value under the target name when the definition declares one. -/
def run_step_def (bindings : List (String × String)) (c : ExecCtx)
    (text : String) : List (String × String) :=
  match StepParser.matchText c.parser text with
  | some args =>
    match c.target_fixture with
    | some nm => dictSet bindings nm (c.step_func (applyConverters c.converters args))
    | none => bindings
  | none => bindings

/-- Modelled from the spec: executing one step line — all matching
definitions run, in order, threading the bindings. Returns the executed
candidates and the final bindings. -/
def execute_step (registry : List ExecCtx) (bindings : List (String × String))
    (category text : String) :
    List ExecCtx × List (String × String) :=
  (matching_defs registry category text,
    (matching_defs registry category text).foldl
      (fun b c => run_step_def b c text) bindings)

/-- C4: the definitions executed for a step line are exactly the registered
definitions of its category whose parser matches — all of them, not only the
most specific — and they run in registration order (the executed list is a
sublist of the registry in its order); when exactly one definition matches
and declares a target name, that definition alone executes and its return
value becomes resolvable under that name for later steps. -/
theorem C4_all_matching_defs_execute (registry : List ExecCtx)
    (bindings : List (String × String)) (category text : String) :
    (execute_step registry bindings category text).1.Sublist registry ∧
    (∀ c, c ∈ (execute_step registry bindings category text).1 ↔
      (c ∈ registry ∧ c.type = category ∧
        (StepParser.matchText c.parser text).isSome = true)) ∧
    (∀ c args nm, matching_defs registry category text = [c] →
      StepParser.matchText c.parser text = some args →
      c.target_fixture = some nm →
      dictGet (execute_step registry bindings category text).2 nm
        = some (c.step_func (applyConverters c.converters args))) := by
  refine ⟨List.filter_sublist registry, ?_, ?_⟩
  · intro c
    show c ∈ registry.filter _ ↔ _
    rw [List.mem_filter]
    simp [Bool.and_eq_true]
  · intro c args nm hone hmatch htarget
    show dictGet ((matching_defs registry category text).foldl
      (fun b c => run_step_def b c text) bindings) nm = _
    rw [hone]
    show dictGet (run_step_def bindings c text) nm = _
    rw [run_step_def, hmatch, htarget]
    exact dictGet_dictSet_self bindings nm _

/-- The Given/Then pair of the fixture-injection scenario: a given step
declaring `target_fixture="foo"` whose implementation returns
`"injected foo"`. -/
def demoGivenCtx : ExecCtx :=
  StepFunctionContext.mk GIVEN (fun _ => "injected foo")
    (StepParser.string "I have injecting given") [] (some "foo")

/-- A then step requesting nothing back, for the same demo registry. -/
def demoThenCtx : ExecCtx :=
  StepFunctionContext.mk THEN (fun _ => "")
    (StepParser.string "foo should be injected foo") [] none

theorem C4_all_matching_defs_execute_witness :
    matching_defs [demoGivenCtx, demoThenCtx] GIVEN "I have injecting given"
      = [demoGivenCtx] ∧
    StepParser.matchText demoGivenCtx.parser "I have injecting given" = some [] ∧
    demoGivenCtx.target_fixture = some "foo" ∧
    dictGet (execute_step [demoGivenCtx, demoThenCtx] [] GIVEN
        "I have injecting given").2 "foo" = some "injected foo" :=
  ⟨rfl, rfl, rfl,
    (C4_all_matching_defs_execute [demoGivenCtx, demoThenCtx] [] GIVEN
        "I have injecting given").2.2 demoGivenCtx [] "foo" rfl rfl rfl⟩

/-! ### The substring-parser scenario (C8) -/

/-- The templated parser `"the \x7bfirst\x7d is \x7bsecond\x7d"`. -/
def parserSubA : StepParser :=
  StepParser.parse [PatternTok.lit "the", PatternTok.slot "first",
    PatternTok.lit "is", PatternTok.slot "second"]

/-- The templated parser `"the \x7bfirst\x7d is very \x7bsecond\x7d"`. -/
def parserSubB : StepParser :=
  StepParser.parse [PatternTok.lit "the", PatternTok.slot "first",
    PatternTok.lit "is", PatternTok.lit "very", PatternTok.slot "second"]

/-- The given definition registered on `parserSubA`; the test implementation
asserts `first == "foo"` and `second == "bar"`. -/
def subCtxA : ExecCtx := StepFunctionContext.mk GIVEN (fun _ => "") parserSubA [] none

/-- The given definition registered on `parserSubB`, same assertions. -/
def subCtxB : ExecCtx := StepFunctionContext.mk GIVEN (fun _ => "") parserSubB [] none

/-- C8: against the registered parsers for `"the \x7bfirst\x7d is
\x7bsecond\x7d"` and `"the \x7bfirst\x7d is very \x7bsecond\x7d"`, the
text `"the foo is bar"` is matched only by the first, extracting
`first="foo"`, `second="bar"`, and `"the foo is very bar"` only by the
second; in a scenario holding both step lines each line therefore executes
exactly its own definition with exactly the asserted arguments, so the
scenario passes. -/
theorem C8_substring_parsers :
    StepParser.matchText parserSubA "the foo is bar"
      = some [("first", "foo"), ("second", "bar")] ∧
    StepParser.matchText parserSubB "the foo is bar" = none ∧
    StepParser.matchText parserSubA "the foo is very bar" = none ∧
    StepParser.matchText parserSubB "the foo is very bar"
      = some [("first", "foo"), ("second", "bar")] ∧
    matching_defs [subCtxA, subCtxB] GIVEN "the foo is bar" = [subCtxA] ∧
    matching_defs [subCtxA, subCtxB] GIVEN "the foo is very bar" = [subCtxB] :=
  ⟨by decide, by decide, by decide, by decide, rfl, rfl⟩

end PytestBdd
